import Mathlib

/-!
Verification of the arena-based node-allocation core of the `origin` repository
(`sandbox/lang/lambda/context.cpp`).  The source file defines a generic helper
`emplace_node` (append one element constructed in place, return the address of
the freshly appended last element) and five factory operations over two arena
objects: `term_factory` with storages `var`, `abs`, `app`, and `stmt_factory`
with storages `decls`, `evals`.

The companion header `context.hpp` is not part of the sources, so the node
layouts and the container type are modelled from the spec: the spec requires
address-stable, append-only storage and recommends modelling addresses as
stable indices into the arena storage.  Here a storage is a Lean `List` grown
only at the tail, and an address is the index of the node in the storage of
its kind; such an index never changes once handed out, which models the
pointer stability the spec demands.
-/

namespace LambdaArena

/-- Modelled from the spec: `Symbol` (declared in the missing `context.hpp`)
is a caller-owned opaque identifier naming a variable; the arenas only store
references to symbols.  We model the identity of a symbol object by a natural
number. -/
abbrev Symbol := Nat

/-- Modelled from the spec: a `Symbol*` value passed by the caller - either
null or a reference to a caller-owned symbol. -/
abbrev SymbolPtr := Option Symbol

/-- Modelled from the spec: a `Variable*` address - null, or the stable handle
of the i-th Variable node created in a term arena. -/
inductive VariablePtr where
  | null : VariablePtr
  | addr (i : Nat) : VariablePtr
deriving DecidableEq

/-- Modelled from the spec: a `Term*` address - null, or a stable handle naming
the i-th node of one of the three term kinds of a term arena. -/
inductive TermPtr where
  | null : TermPtr
  | varAddr (i : Nat) : TermPtr
  | absAddr (i : Nat) : TermPtr
  | appAddr (i : Nat) : TermPtr
deriving DecidableEq

/-- The derived-to-base pointer conversion `Variable* -> Term*`: the same
node viewed as a term. -/
def VariablePtr.toTerm : VariablePtr → TermPtr
  | .null => .null
  | .addr i => .varAddr i

/-- Modelled from the spec: a `Statement*`-level address into a statement
arena - null, or the stable handle of the i-th Declaration or Evaluation. -/
inductive StmtPtr where
  | null : StmtPtr
  | declAddr (i : Nat) : StmtPtr
  | evalAddr (i : Nat) : StmtPtr
deriving DecidableEq

/-- Modelled from the spec: `Variable_impl` wraps a reference to a Symbol. -/
structure Variable_impl where
  sym : SymbolPtr
deriving DecidableEq

/-- Modelled from the spec: `Abstraction_impl` holds a reference to a Variable
(the bound parameter, field `bvar` since `variable` is reserved in Lean) and a
reference to a Term (the body). -/
structure Abstraction_impl where
  bvar : VariablePtr
  body : TermPtr
deriving DecidableEq

/-- Modelled from the spec: `Application_impl` holds references to two Terms,
left and right. -/
structure Application_impl where
  left : TermPtr
  right : TermPtr
deriving DecidableEq

/-- Modelled from the spec: `Declaration_impl` holds a reference to a Variable
and a reference to a Term (its definition). -/
structure Declaration_impl where
  bvar : VariablePtr
  definition : TermPtr
deriving DecidableEq

/-- Modelled from the spec: `Evaluation_impl` holds a reference to a Term to be
evaluated as a top-level action. -/
structure Evaluation_impl where
  term : TermPtr
deriving DecidableEq

/-- Modelled from the spec: the state of the Term Arena object
(`term_factory`).  The member names `var`, `abs`, `app` are the ones
`context.cpp` uses; the container type comes from the spec requirement that
appending never relocates previously appended elements, modelled as a list
grown only at the tail with index addressing. -/
structure term_factory where
  var : List Variable_impl
  abs : List Abstraction_impl
  app : List Application_impl
deriving DecidableEq

/-- Modelled from the spec: the state of the Statement Arena object
(`stmt_factory`) with the member names `decls`, `evals` used by
`context.cpp`. -/
structure stmt_factory where
  decls : List Declaration_impl
  evals : List Evaluation_impl
deriving DecidableEq

/-- `emplace_node` from `context.cpp`: grow `list` by exactly one element
constructed from the supplied arguments and return the address of the freshly
appended last element (`&list.back()`), modelled as its stable index, which is
the length of the list before the append. -/
def emplace_node {α : Type} (list : List α) (node : α) : List α × Nat :=
  (list ++ [node], list.length)

/-- `term_factory::make_variable` from `context.cpp`:
`return emplace_node(var, sym);`. -/
def term_factory.make_variable (f : term_factory) (sym : SymbolPtr) :
    term_factory × VariablePtr :=
  let r := emplace_node f.var { sym := sym }
  ({ f with var := r.1 }, .addr r.2)

/-- `term_factory::make_abstraction` from `context.cpp`:
`return emplace_node(abs, var, term);`. -/
def term_factory.make_abstraction (f : term_factory) (v : VariablePtr)
    (term : TermPtr) : term_factory × TermPtr :=
  let r := emplace_node f.abs { bvar := v, body := term }
  ({ f with abs := r.1 }, .absAddr r.2)

/-- `term_factory::make_application` from `context.cpp`:
`return emplace_node(app, left, right);`. -/
def term_factory.make_application (f : term_factory) (left right : TermPtr) :
    term_factory × TermPtr :=
  let r := emplace_node f.app { left := left, right := right }
  ({ f with app := r.1 }, .appAddr r.2)

/-- `stmt_factory::make_declaration` from `context.cpp`:
`return emplace_node(decls, var, def);`. -/
def stmt_factory.make_declaration (g : stmt_factory) (v : VariablePtr)
    (d : TermPtr) : stmt_factory × StmtPtr :=
  let r := emplace_node g.decls { bvar := v, definition := d }
  ({ g with decls := r.1 }, .declAddr r.2)

/-- `stmt_factory::make_evaluation` from `context.cpp`:
`return emplace_node(evals, term);`. -/
def stmt_factory.make_evaluation (g : stmt_factory) (term : TermPtr) :
    stmt_factory × StmtPtr :=
  let r := emplace_node g.evals { term := term }
  ({ g with evals := r.1 }, .evalAddr r.2)

/-- A term-arena node, for dereferencing a `Term*` address. -/
inductive TermNode where
  | varN (v : Variable_impl)
  | absN (a : Abstraction_impl)
  | appN (a : Application_impl)
deriving DecidableEq

/-- A statement-arena node, for dereferencing a statement address. -/
inductive StmtNode where
  | declN (d : Declaration_impl)
  | evalN (e : Evaluation_impl)
deriving DecidableEq

/-- Dereference a `Term*` address in a term arena: the node currently stored
at that address, if any. -/
def term_factory.deref (f : term_factory) : TermPtr → Option TermNode
  | .null => none
  | .varAddr i => (f.var[i]?).map .varN
  | .absAddr i => (f.abs[i]?).map .absN
  | .appAddr i => (f.app[i]?).map .appN

/-- Dereference a statement address in a statement arena. -/
def stmt_factory.deref (g : stmt_factory) : StmtPtr → Option StmtNode
  | .null => none
  | .declAddr i => (g.decls[i]?).map .declN
  | .evalAddr i => (g.evals[i]?).map .evalN

/-- One creation call on the Term Arena, with the arguments the caller
supplies. -/
inductive TermOp where
  | mkVar (sym : SymbolPtr)
  | mkAbs (v : VariablePtr) (t : TermPtr)
  | mkApp (l r : TermPtr)
deriving DecidableEq

/-- One creation call on the Statement Arena. -/
inductive StmtOp where
  | mkDecl (v : VariablePtr) (d : TermPtr)
  | mkEval (t : TermPtr)
deriving DecidableEq

/-- The state after one Term Arena creation call. -/
def term_factory.step (f : term_factory) : TermOp → term_factory
  | .mkVar s => (f.make_variable s).1
  | .mkAbs v t => (f.make_abstraction v t).1
  | .mkApp l r => (f.make_application l r).1

/-- The address returned by one Term Arena creation call (a Variable address
is viewed as the corresponding `Term*`). -/
def term_factory.retOf (f : term_factory) : TermOp → TermPtr
  | .mkVar s => (f.make_variable s).2.toTerm
  | .mkAbs v t => (f.make_abstraction v t).2
  | .mkApp l r => (f.make_application l r).2

/-- The state after one Statement Arena creation call. -/
def stmt_factory.step (g : stmt_factory) : StmtOp → stmt_factory
  | .mkDecl v d => (g.make_declaration v d).1
  | .mkEval t => (g.make_evaluation t).1

/-- The address returned by one Statement Arena creation call. -/
def stmt_factory.retOf (g : stmt_factory) : StmtOp → StmtPtr
  | .mkDecl v d => (g.make_declaration v d).2
  | .mkEval t => (g.make_evaluation t).2

/-- Run a sequence of creation calls on the Term Arena. -/
def term_factory.run (f : term_factory) : List TermOp → term_factory
  | [] => f
  | o :: os => (f.step o).run os

/-- Run a sequence of creation calls on the Statement Arena. -/
def stmt_factory.run (g : stmt_factory) : List StmtOp → stmt_factory
  | [] => g
  | o :: os => (g.step o).run os

/-- The addresses returned, in order, by a sequence of Term Arena calls
starting from state `f`. -/
def term_factory.retsFrom (f : term_factory) : List TermOp → List TermPtr
  | [] => []
  | o :: os => f.retOf o :: (f.step o).retsFrom os

/-- The addresses returned, in order, by a sequence of Statement Arena calls
starting from state `g`. -/
def stmt_factory.retsFrom (g : stmt_factory) : List StmtOp → List StmtPtr
  | [] => []
  | o :: os => g.retOf o :: (g.step o).retsFrom os

/-- A freshly constructed Term Arena. -/
def term_factory.empty : term_factory := ⟨[], [], []⟩

/-- A freshly constructed Statement Arena. -/
def stmt_factory.empty : stmt_factory := ⟨[], []⟩

/-- Total number of nodes held by a Term Arena. -/
def term_factory.count (f : term_factory) : Nat :=
  f.var.length + f.abs.length + f.app.length

/-- Total number of nodes held by a Statement Arena. -/
def stmt_factory.count (g : stmt_factory) : Nat :=
  g.decls.length + g.evals.length

theorem getElem?_append_of_some {α : Type} {l l' : List α} {i : Nat} {x : α}
    (h : l[i]? = some x) : (l ++ l')[i]? = some x := by
  induction l generalizing i with
  | nil => simp at h
  | cons a t ih =>
    cases i with
    | zero =>
      simp only [List.cons_append, List.getElem?_cons_zero] at h ⊢
      exact h
    | succ j =>
      simp only [List.cons_append, List.getElem?_cons_succ] at h ⊢
      exact ih h

theorem step_mkVar (f : term_factory) (s : SymbolPtr) :
    f.step (.mkVar s) = { f with var := f.var ++ [{ sym := s }] } := rfl

theorem step_mkAbs (f : term_factory) (v : VariablePtr) (t : TermPtr) :
    f.step (.mkAbs v t) = { f with abs := f.abs ++ [{ bvar := v, body := t }] } := rfl

theorem step_mkApp (f : term_factory) (l r : TermPtr) :
    f.step (.mkApp l r) = { f with app := f.app ++ [{ left := l, right := r }] } := rfl

theorem step_mkDecl (g : stmt_factory) (v : VariablePtr) (d : TermPtr) :
    g.step (.mkDecl v d) = { g with decls := g.decls ++ [{ bvar := v, definition := d }] } := rfl

theorem step_mkEval (g : stmt_factory) (t : TermPtr) :
    g.step (.mkEval t) = { g with evals := g.evals ++ [{ term := t }] } := rfl

/-- A Term Arena step only extends each storage at the tail. -/
theorem step_extends (f : term_factory) (o : TermOp) :
    (∃ a, (f.step o).var = f.var ++ a) ∧ (∃ b, (f.step o).abs = f.abs ++ b) ∧
      (∃ c, (f.step o).app = f.app ++ c) := by
  cases o with
  | mkVar s =>
    exact ⟨⟨_, rfl⟩, ⟨[], (List.append_nil _).symm⟩, ⟨[], (List.append_nil _).symm⟩⟩
  | mkAbs v t =>
    exact ⟨⟨[], (List.append_nil _).symm⟩, ⟨_, rfl⟩, ⟨[], (List.append_nil _).symm⟩⟩
  | mkApp l r =>
    exact ⟨⟨[], (List.append_nil _).symm⟩, ⟨[], (List.append_nil _).symm⟩, ⟨_, rfl⟩⟩

/-- A Statement Arena step only extends each storage at the tail. -/
theorem step_extends_stmt (g : stmt_factory) (o : StmtOp) :
    (∃ a, (g.step o).decls = g.decls ++ a) ∧ (∃ b, (g.step o).evals = g.evals ++ b) := by
  cases o with
  | mkDecl v d => exact ⟨⟨_, rfl⟩, ⟨[], (List.append_nil _).symm⟩⟩
  | mkEval t => exact ⟨⟨[], (List.append_nil _).symm⟩, ⟨_, rfl⟩⟩

/-- Dereferencing is preserved when every storage is only extended. -/
theorem deref_of_extends {f f' : term_factory}
    (hv : ∃ a, f'.var = f.var ++ a) (hb : ∃ b, f'.abs = f.abs ++ b)
    (hc : ∃ c, f'.app = f.app ++ c) {p : TermPtr} {n : TermNode}
    (h : f.deref p = some n) : f'.deref p = some n := by
  obtain ⟨a, ha⟩ := hv
  obtain ⟨b, hb⟩ := hb
  obtain ⟨c, hc⟩ := hc
  cases p with
  | null => simp [term_factory.deref] at h
  | varAddr i =>
    simp only [term_factory.deref, ha] at h ⊢
    obtain ⟨v, h1, h2⟩ := Option.map_eq_some'.mp h
    rw [getElem?_append_of_some h1]
    simpa using h2
  | absAddr i =>
    simp only [term_factory.deref, hb] at h ⊢
    obtain ⟨v, h1, h2⟩ := Option.map_eq_some'.mp h
    rw [getElem?_append_of_some h1]
    simpa using h2
  | appAddr i =>
    simp only [term_factory.deref, hc] at h ⊢
    obtain ⟨v, h1, h2⟩ := Option.map_eq_some'.mp h
    rw [getElem?_append_of_some h1]
    simpa using h2

/-- Dereferencing in a statement arena is preserved under storage extension. -/
theorem deref_of_extends_stmt {g g' : stmt_factory}
    (hd : ∃ a, g'.decls = g.decls ++ a) (he : ∃ b, g'.evals = g.evals ++ b)
    {p : StmtPtr} {n : StmtNode}
    (h : g.deref p = some n) : g'.deref p = some n := by
  obtain ⟨a, ha⟩ := hd
  obtain ⟨b, hb⟩ := he
  cases p with
  | null => simp [stmt_factory.deref] at h
  | declAddr i =>
    simp only [stmt_factory.deref, ha] at h ⊢
    obtain ⟨v, h1, h2⟩ := Option.map_eq_some'.mp h
    rw [getElem?_append_of_some h1]
    simpa using h2
  | evalAddr i =>
    simp only [stmt_factory.deref, hb] at h ⊢
    obtain ⟨v, h1, h2⟩ := Option.map_eq_some'.mp h
    rw [getElem?_append_of_some h1]
    simpa using h2

/-- One creation call preserves every dereference that succeeded before it. -/
theorem deref_step (f : term_factory) (o : TermOp) {p : TermPtr} {n : TermNode}
    (h : f.deref p = some n) : (f.step o).deref p = some n :=
  deref_of_extends (step_extends f o).1 (step_extends f o).2.1
    (step_extends f o).2.2 h

/-- A whole sequence of creation calls preserves every dereference. -/
theorem deref_run (f : term_factory) (ops : List TermOp) {p : TermPtr}
    {n : TermNode} (h : f.deref p = some n) : (f.run ops).deref p = some n := by
  induction ops generalizing f with
  | nil => exact h
  | cons o os ih => exact ih (f.step o) (deref_step f o h)

/-- Statement-arena analogue of `deref_step`. -/
theorem deref_step_stmt (g : stmt_factory) (o : StmtOp) {p : StmtPtr}
    {n : StmtNode} (h : g.deref p = some n) : (g.step o).deref p = some n :=
  deref_of_extends_stmt (step_extends_stmt g o).1 (step_extends_stmt g o).2 h

/-- Statement-arena analogue of `deref_run`. -/
theorem deref_run_stmt (g : stmt_factory) (ops : List StmtOp) {p : StmtPtr}
    {n : StmtNode} (h : g.deref p = some n) : (g.run ops).deref p = some n := by
  induction ops generalizing g with
  | nil => exact h
  | cons o os ih => exact ih (g.step o) (deref_step_stmt g o h)

/-- Looking up a list extended by one element at the index of the old length
yields the appended element. -/
theorem getElem?_append_length {α : Type} (l : List α) (x : α) :
    (l ++ [x])[l.length]? = some x := by
  induction l with
  | nil => rfl
  | cons a t ih =>
    simp only [List.cons_append, List.length_cons, List.getElem?_cons_succ]
    exact ih

/-- Claim C1: for every sequence of creation calls on one arena instance (term
or statement), the address returned by an earlier call keeps comparing equal
(addresses are stable indices, never rewritten) and keeps dereferencing to the
very same node after any number of further creation calls. -/
theorem address_stability
    (f : term_factory) (ops : List TermOp) (p : TermPtr) (n : TermNode)
    (g : stmt_factory) (sops : List StmtOp) (q : StmtPtr) (m : StmtNode) :
    (f.deref p = some n → (f.run ops).deref p = some n) ∧
    (g.deref q = some m → (g.run sops).deref q = some m) :=
  ⟨fun h => deref_run f ops h, fun h => deref_run_stmt g sops h⟩

/-- Witness for C1: a Variable created first still dereferences to its node
after an abstraction and another variable are created; likewise for an
Evaluation followed by a Declaration. -/
theorem address_stability_witness :
    ((term_factory.empty.step (.mkVar (some 7))).run
        [.mkAbs (.addr 0) (.varAddr 0), .mkVar (some 3)]).deref (.varAddr 0)
      = some (.varN { sym := some 7 }) ∧
    ((stmt_factory.empty.step (.mkEval .null)).run
        [.mkDecl .null .null]).deref (.evalAddr 0)
      = some (.evalN { term := .null }) :=
  ⟨(address_stability (term_factory.empty.step (.mkVar (some 7)))
      [.mkAbs (.addr 0) (.varAddr 0), .mkVar (some 3)] (.varAddr 0)
      (.varN { sym := some 7 }) stmt_factory.empty [] .null
      (.evalN { term := .null })).1 (by decide),
   (address_stability term_factory.empty [] .null (.varN { sym := none })
      (stmt_factory.empty.step (.mkEval .null)) [.mkDecl .null .null]
      (.evalAddr 0) (.evalN { term := .null })).2 (by decide)⟩

/-- Claim C2: every factory operation of both arenas grows the storage of its
node kind by exactly one element constructed from exactly the supplied
arguments, returns the index of the freshly appended last element, and that
returned address dereferences to the appended node. -/
theorem factory_appends_one_and_returns_last
    (f : term_factory) (s : SymbolPtr) (v : VariablePtr) (t l r : TermPtr)
    (g : stmt_factory) (dv : VariablePtr) (dd dt : TermPtr) :
    ((f.make_variable s).1.var = f.var ++ [{ sym := s }] ∧
      (f.make_variable s).2 = .addr f.var.length ∧
      (f.make_variable s).1.deref (f.make_variable s).2.toTerm
        = some (.varN { sym := s })) ∧
    ((f.make_abstraction v t).1.abs = f.abs ++ [{ bvar := v, body := t }] ∧
      (f.make_abstraction v t).2 = .absAddr f.abs.length ∧
      (f.make_abstraction v t).1.deref (f.make_abstraction v t).2
        = some (.absN { bvar := v, body := t })) ∧
    ((f.make_application l r).1.app = f.app ++ [{ left := l, right := r }] ∧
      (f.make_application l r).2 = .appAddr f.app.length ∧
      (f.make_application l r).1.deref (f.make_application l r).2
        = some (.appN { left := l, right := r })) ∧
    ((g.make_declaration dv dd).1.decls
        = g.decls ++ [{ bvar := dv, definition := dd }] ∧
      (g.make_declaration dv dd).2 = .declAddr g.decls.length ∧
      (g.make_declaration dv dd).1.deref (g.make_declaration dv dd).2
        = some (.declN { bvar := dv, definition := dd })) ∧
    ((g.make_evaluation dt).1.evals = g.evals ++ [{ term := dt }] ∧
      (g.make_evaluation dt).2 = .evalAddr g.evals.length ∧
      (g.make_evaluation dt).1.deref (g.make_evaluation dt).2
        = some (.evalN { term := dt })) := by
  refine ⟨⟨rfl, rfl, ?_⟩, ⟨rfl, rfl, ?_⟩, ⟨rfl, rfl, ?_⟩, ⟨rfl, rfl, ?_⟩,
    ⟨rfl, rfl, ?_⟩⟩ <;>
    simp [term_factory.make_variable, term_factory.make_abstraction,
      term_factory.make_application, stmt_factory.make_declaration,
      stmt_factory.make_evaluation, emplace_node, term_factory.deref,
      stmt_factory.deref, VariablePtr.toTerm, getElem?_append_length]

/-- Claim C3: an Abstraction created from a Variable address `v` and a Term
address `t` exposes exactly the addresses passed in; in particular for
`v1 = make_variable x` the node created by `make_abstraction v1 v1` has both
fields equal to `v1`. -/
theorem abstraction_exposes_arguments
    (f : term_factory) (v : VariablePtr) (t : TermPtr)
    (g : term_factory) (x : SymbolPtr) :
    ((f.make_abstraction v t).1.deref (f.make_abstraction v t).2
        = some (.absN { bvar := v, body := t })) ∧
    (((g.make_variable x).1.make_abstraction (g.make_variable x).2
          (g.make_variable x).2.toTerm).1.deref
        ((g.make_variable x).1.make_abstraction (g.make_variable x).2
          (g.make_variable x).2.toTerm).2
      = some (.absN { bvar := (g.make_variable x).2,
                      body := (g.make_variable x).2.toTerm })) := by
  constructor <;>
    simp [term_factory.make_variable, term_factory.make_abstraction,
      emplace_node, term_factory.deref, getElem?_append_length]

/-- Claim C4: `make_declaration v d` constructs, appends and returns the
stable address of a Declaration referencing exactly `v` and `d`, and
`make_evaluation t` does the same for an Evaluation referencing exactly `t`;
the returned addresses still dereference to those nodes after any further
sequence of statement-arena calls. -/
theorem stmt_factory_constructs_and_stable
    (g : stmt_factory) (v : VariablePtr) (d t : TermPtr) (ops : List StmtOp) :
    ((g.make_declaration v d).1.decls
        = g.decls ++ [{ bvar := v, definition := d }] ∧
      ((g.make_declaration v d).1.run ops).deref (g.make_declaration v d).2
        = some (.declN { bvar := v, definition := d })) ∧
    ((g.make_evaluation t).1.evals = g.evals ++ [{ term := t }] ∧
      ((g.make_evaluation t).1.run ops).deref (g.make_evaluation t).2
        = some (.evalN { term := t })) := by
  refine ⟨⟨rfl, deref_run_stmt _ ops ?_⟩, ⟨rfl, deref_run_stmt _ ops ?_⟩⟩ <;>
    simp [stmt_factory.make_declaration, stmt_factory.make_evaluation,
      emplace_node, stmt_factory.deref, getElem?_append_length]

/-- Claim C5: creating a node of one kind leaves the storages of the other
kinds in the same arena untouched; in particular, in the scenario
`v1 = make_variable x; v2 = make_variable y; ap = make_application v1 v2`, a
subsequent `make_variable z` leaves `ap` dereferencing to the node with
`left = v1` and `right = v2`. -/
theorem kind_independence
    (f : term_factory) (s : SymbolPtr) (v : VariablePtr) (t l r : TermPtr)
    (g : stmt_factory) (dv : VariablePtr) (dd dt : TermPtr)
    (u : term_factory) (x y z : SymbolPtr) :
    ((f.make_variable s).1.abs = f.abs ∧ (f.make_variable s).1.app = f.app) ∧
    ((f.make_abstraction v t).1.var = f.var ∧
      (f.make_abstraction v t).1.app = f.app) ∧
    ((f.make_application l r).1.var = f.var ∧
      (f.make_application l r).1.abs = f.abs) ∧
    ((g.make_declaration dv dd).1.evals = g.evals ∧
      (g.make_evaluation dt).1.decls = g.decls) ∧
    (((((u.make_variable x).1.make_variable y).1.make_application
            (u.make_variable x).2.toTerm
            ((u.make_variable x).1.make_variable y).2.toTerm).1.make_variable
          z).1.deref
        ((((u.make_variable x).1.make_variable y).1.make_application
            (u.make_variable x).2.toTerm
            ((u.make_variable x).1.make_variable y).2.toTerm).2)
      = some (.appN { left := (u.make_variable x).2.toTerm,
                      right := ((u.make_variable x).1.make_variable y).2.toTerm })) := by
  refine ⟨⟨rfl, rfl⟩, ⟨rfl, rfl⟩, ⟨rfl, rfl⟩, ⟨rfl, rfl⟩, ?_⟩
  simp [term_factory.make_variable, term_factory.make_application,
    emplace_node, term_factory.deref, getElem?_append_length]

/-- Claim C6: both arenas are append-only: every operation leaves each
existing storage as a prefix of the new one (so no node is removed or
mutated) and adds exactly one node overall. -/
theorem append_only (f : term_factory) (o : TermOp)
    (g : stmt_factory) (q : StmtOp) :
    (∃ a, (f.step o).var = f.var ++ a) ∧ (∃ b, (f.step o).abs = f.abs ++ b) ∧
    (∃ c, (f.step o).app = f.app ++ c) ∧ (f.step o).count = f.count + 1 ∧
    (∃ d, (g.step q).decls = g.decls ++ d) ∧
    (∃ e, (g.step q).evals = g.evals ++ e) ∧
    (g.step q).count = g.count + 1 := by
  refine ⟨(step_extends f o).1, (step_extends f o).2.1, (step_extends f o).2.2,
    ?_, (step_extends_stmt g q).1, (step_extends_stmt g q).2, ?_⟩
  · cases o <;>
      simp [term_factory.count, step_mkVar, step_mkAbs, step_mkApp] <;> omega
  · cases q <;>
      simp [stmt_factory.count, step_mkDecl, step_mkEval] <;> omega

/-- Claim C7: every factory operation is a total function of the arena state
and its arguments: for every input it produces a successor state holding one
more node, and the returned address dereferences to a node; no input is
rejected and no error is reported (allocation failure lies outside this
memory-safe model, matching the spec, which treats it as a fatal event, not a
checked error). -/
theorem operations_always_succeed (f : term_factory) (o : TermOp)
    (g : stmt_factory) (q : StmtOp) :
    ((f.step o).count = f.count + 1 ∧
      ∃ n, (f.step o).deref (f.retOf o) = some n) ∧
    ((g.step q).count = g.count + 1 ∧
      ∃ n, (g.step q).deref (g.retOf q) = some n) := by
  refine ⟨⟨?_, ?_⟩, ⟨?_, ?_⟩⟩
  · cases o <;>
      simp [term_factory.count, step_mkVar, step_mkAbs, step_mkApp] <;> omega
  · cases o with
    | mkVar s =>
      exact ⟨.varN { sym := s }, by
        simp [term_factory.step, term_factory.retOf, term_factory.make_variable,
          emplace_node, term_factory.deref, VariablePtr.toTerm,
          getElem?_append_length]⟩
    | mkAbs v t =>
      exact ⟨.absN { bvar := v, body := t }, by
        simp [term_factory.step, term_factory.retOf,
          term_factory.make_abstraction, emplace_node, term_factory.deref,
          getElem?_append_length]⟩
    | mkApp l r =>
      exact ⟨.appN { left := l, right := r }, by
        simp [term_factory.step, term_factory.retOf,
          term_factory.make_application, emplace_node, term_factory.deref,
          getElem?_append_length]⟩
  · cases q <;>
      simp [stmt_factory.count, step_mkDecl, step_mkEval] <;> omega
  · cases q with
    | mkDecl v d =>
      exact ⟨.declN { bvar := v, definition := d }, by
        simp [stmt_factory.step, stmt_factory.retOf,
          stmt_factory.make_declaration, emplace_node, stmt_factory.deref,
          getElem?_append_length]⟩
    | mkEval t =>
      exact ⟨.evalN { term := t }, by
        simp [stmt_factory.step, stmt_factory.retOf,
          stmt_factory.make_evaluation, emplace_node, stmt_factory.deref,
          getElem?_append_length]⟩

/-- Claim C10: the factory operations validate nothing: a null Symbol
reference or null Term references are accepted, stored unchanged in the
created node, and the operation still returns the stable address of a freshly
appended node. -/
theorem null_arguments_accepted (f : term_factory) :
    ((f.make_variable none).1.var = f.var ++ [{ sym := none }] ∧
      (f.make_variable none).2 = .addr f.var.length ∧
      (f.make_variable none).1.deref (f.make_variable none).2.toTerm
        = some (.varN { sym := none })) ∧
    ((f.make_application .null .null).1.app
        = f.app ++ [{ left := .null, right := .null }] ∧
      (f.make_application .null .null).2 = .appAddr f.app.length ∧
      (f.make_application .null .null).1.deref
          (f.make_application .null .null).2
        = some (.appN { left := .null, right := .null })) := by
  refine ⟨⟨rfl, rfl, ?_⟩, ⟨rfl, rfl, ?_⟩⟩ <;>
    simp [term_factory.make_variable, term_factory.make_application,
      emplace_node, term_factory.deref, VariablePtr.toTerm,
      getElem?_append_length]

/-- Per-kind storage lengths never shrink across a step. -/
theorem step_lengths_mono (f : term_factory) (o : TermOp) :
    f.var.length ≤ (f.step o).var.length ∧
      f.abs.length ≤ (f.step o).abs.length ∧
      f.app.length ≤ (f.step o).app.length := by
  obtain ⟨⟨a, ha⟩, ⟨b, hb⟩, ⟨c, hc⟩⟩ := step_extends f o
  refine ⟨?_, ?_, ?_⟩
  · rw [ha]; simp only [List.length_append]; omega
  · rw [hb]; simp only [List.length_append]; omega
  · rw [hc]; simp only [List.length_append]; omega

/-- Statement-arena analogue of `step_lengths_mono`. -/
theorem step_lengths_mono_stmt (g : stmt_factory) (o : StmtOp) :
    g.decls.length ≤ (g.step o).decls.length ∧
      g.evals.length ≤ (g.step o).evals.length := by
  obtain ⟨⟨a, ha⟩, ⟨b, hb⟩⟩ := step_extends_stmt g o
  constructor
  · rw [ha]; simp only [List.length_append]; omega
  · rw [hb]; simp only [List.length_append]; omega

/-- A term address not yet handed out by arena state `f`: its index lies at or
beyond the end of the storage of its kind. -/
def ptrFresh (f : term_factory) : TermPtr → Prop
  | .null => False
  | .varAddr i => f.var.length ≤ i
  | .absAddr i => f.abs.length ≤ i
  | .appAddr i => f.app.length ≤ i

/-- A statement address not yet handed out by arena state `g`. -/
def stmtPtrFresh (g : stmt_factory) : StmtPtr → Prop
  | .null => False
  | .declAddr i => g.decls.length ≤ i
  | .evalAddr i => g.evals.length ≤ i

theorem ptrFresh_of_step {f : term_factory} {o : TermOp} {p : TermPtr}
    (h : ptrFresh (f.step o) p) : ptrFresh f p := by
  obtain ⟨h1, h2, h3⟩ := step_lengths_mono f o
  cases p <;> simp only [ptrFresh] at h ⊢ <;> omega

theorem stmtPtrFresh_of_step {g : stmt_factory} {o : StmtOp} {p : StmtPtr}
    (h : stmtPtrFresh (g.step o) p) : stmtPtrFresh g p := by
  obtain ⟨h1, h2⟩ := step_lengths_mono_stmt g o
  cases p <;> simp only [stmtPtrFresh] at h ⊢ <;> omega

/-- Every address returned during a call sequence is fresh for the starting
state. -/
theorem mem_retsFrom_fresh {f : term_factory} {ops : List TermOp} {p : TermPtr}
    (h : p ∈ f.retsFrom ops) : ptrFresh f p := by
  induction ops generalizing f with
  | nil => simp [term_factory.retsFrom] at h
  | cons o os ih =>
    rcases List.mem_cons.mp h with h | h
    · subst h
      cases o <;>
        simp [term_factory.retOf, term_factory.make_variable,
          term_factory.make_abstraction, term_factory.make_application,
          emplace_node, VariablePtr.toTerm, ptrFresh]
    · exact ptrFresh_of_step (ih h)

theorem mem_retsFrom_fresh_stmt {g : stmt_factory} {ops : List StmtOp}
    {p : StmtPtr} (h : p ∈ g.retsFrom ops) : stmtPtrFresh g p := by
  induction ops generalizing g with
  | nil => simp [stmt_factory.retsFrom] at h
  | cons o os ih =>
    rcases List.mem_cons.mp h with h | h
    · subst h
      cases o <;>
        simp [stmt_factory.retOf, stmt_factory.make_declaration,
          stmt_factory.make_evaluation, emplace_node, stmtPtrFresh]
    · exact stmtPtrFresh_of_step (ih h)

/-- The address a call returns is no longer fresh after that call. -/
theorem retOf_not_fresh_after (f : term_factory) (o : TermOp) :
    ¬ ptrFresh (f.step o) (f.retOf o) := by
  cases o <;>
    simp [term_factory.retOf, term_factory.step, term_factory.make_variable,
      term_factory.make_abstraction, term_factory.make_application,
      emplace_node, VariablePtr.toTerm, ptrFresh]

theorem retOf_not_fresh_after_stmt (g : stmt_factory) (o : StmtOp) :
    ¬ stmtPtrFresh (g.step o) (g.retOf o) := by
  cases o <;>
    simp [stmt_factory.retOf, stmt_factory.step, stmt_factory.make_declaration,
      stmt_factory.make_evaluation, emplace_node, stmtPtrFresh]

/-- The addresses returned by a call sequence are pairwise distinct. -/
theorem retsFrom_nodup (f : term_factory) (ops : List TermOp) :
    (f.retsFrom ops).Nodup := by
  induction ops generalizing f with
  | nil => exact List.nodup_nil
  | cons o os ih =>
    refine List.nodup_cons.mpr ⟨fun hmem => ?_, ih (f.step o)⟩
    exact retOf_not_fresh_after f o (mem_retsFrom_fresh hmem)

theorem retsFrom_nodup_stmt (g : stmt_factory) (ops : List StmtOp) :
    (g.retsFrom ops).Nodup := by
  induction ops generalizing g with
  | nil => exact List.nodup_nil
  | cons o os ih =>
    refine List.nodup_cons.mpr ⟨fun hmem => ?_, ih (g.step o)⟩
    exact retOf_not_fresh_after_stmt g o (mem_retsFrom_fresh_stmt hmem)

/-- Running a call sequence adds exactly one node per call. -/
theorem count_run (f : term_factory) (ops : List TermOp) :
    (f.run ops).count = f.count + ops.length := by
  induction ops generalizing f with
  | nil => rfl
  | cons o os ih =>
    have hstep : (f.step o).count = f.count + 1 := by
      cases o <;>
        simp [term_factory.count, step_mkVar, step_mkAbs, step_mkApp] <;> omega
    have hrec := ih (f.step o)
    have hrw : f.run (o :: os) = (f.step o).run os := rfl
    rw [hrw]
    simp only [List.length_cons]
    omega

theorem count_run_stmt (g : stmt_factory) (ops : List StmtOp) :
    (g.run ops).count = g.count + ops.length := by
  induction ops generalizing g with
  | nil => rfl
  | cons o os ih =>
    have hstep : (g.step o).count = g.count + 1 := by
      cases o <;>
        simp [stmt_factory.count, step_mkDecl, step_mkEval] <;> omega
    have hrec := ih (g.step o)
    have hrw : g.run (o :: os) = (g.step o).run os := rfl
    rw [hrw]
    simp only [List.length_cons]
    omega

/-- The Variable node a call creates, if it is a `make_variable` call. -/
def TermOp.varPart : TermOp → Option Variable_impl
  | .mkVar s => some { sym := s }
  | _ => none

/-- The Abstraction node a call creates, if it is a `make_abstraction` call. -/
def TermOp.absPart : TermOp → Option Abstraction_impl
  | .mkAbs v t => some { bvar := v, body := t }
  | _ => none

/-- The Application node a call creates, if it is a `make_application` call. -/
def TermOp.appPart : TermOp → Option Application_impl
  | .mkApp l r => some { left := l, right := r }
  | _ => none

theorem run_var_content (f : term_factory) (ops : List TermOp) :
    (f.run ops).var = f.var ++ ops.filterMap TermOp.varPart := by
  induction ops generalizing f with
  | nil => simp [term_factory.run]
  | cons o os ih =>
    have hrw : f.run (o :: os) = (f.step o).run os := rfl
    rw [hrw, ih (f.step o)]
    cases o <;>
      simp [step_mkVar, step_mkAbs, step_mkApp, TermOp.varPart,
        List.filterMap_cons, List.append_assoc]

theorem run_abs_content (f : term_factory) (ops : List TermOp) :
    (f.run ops).abs = f.abs ++ ops.filterMap TermOp.absPart := by
  induction ops generalizing f with
  | nil => simp [term_factory.run]
  | cons o os ih =>
    have hrw : f.run (o :: os) = (f.step o).run os := rfl
    rw [hrw, ih (f.step o)]
    cases o <;>
      simp [step_mkVar, step_mkAbs, step_mkApp, TermOp.absPart,
        List.filterMap_cons, List.append_assoc]

theorem run_app_content (f : term_factory) (ops : List TermOp) :
    (f.run ops).app = f.app ++ ops.filterMap TermOp.appPart := by
  induction ops generalizing f with
  | nil => simp [term_factory.run]
  | cons o os ih =>
    have hrw : f.run (o :: os) = (f.step o).run os := rfl
    rw [hrw, ih (f.step o)]
    cases o <;>
      simp [step_mkVar, step_mkAbs, step_mkApp, TermOp.appPart,
        List.filterMap_cons, List.append_assoc]

/-- Claim C9: the arenas never deduplicate: the addresses returned along any
call sequence are pairwise distinct (in particular two `make_variable` calls
with the same Symbol return different addresses), and after N creation calls
an arena holds exactly N nodes, each storage listing its nodes in creation
order. -/
theorem no_interning
    (f : term_factory) (ops opsN : List TermOp) (s : SymbolPtr)
    (g : stmt_factory) (sops : List StmtOp) :
    (f.retsFrom ops).Nodup ∧
    ((f.make_variable s).1.make_variable s).2 ≠ (f.make_variable s).2 ∧
    (g.retsFrom sops).Nodup ∧
    (term_factory.empty.run opsN).count = opsN.length ∧
    (term_factory.empty.run opsN).var = opsN.filterMap TermOp.varPart ∧
    (term_factory.empty.run opsN).abs = opsN.filterMap TermOp.absPart ∧
    (term_factory.empty.run opsN).app = opsN.filterMap TermOp.appPart ∧
    (stmt_factory.empty.run sops).count = sops.length := by
  refine ⟨retsFrom_nodup f ops, ?_, retsFrom_nodup_stmt g sops, ?_, ?_, ?_, ?_, ?_⟩
  · simp [term_factory.make_variable, emplace_node]
  · have := count_run term_factory.empty opsN
    simpa [term_factory.empty, term_factory.count] using this
  · simpa [term_factory.empty] using run_var_content term_factory.empty opsN
  · simpa [term_factory.empty] using run_abs_content term_factory.empty opsN
  · simpa [term_factory.empty] using run_app_content term_factory.empty opsN
  · have := count_run_stmt stmt_factory.empty sops
    simpa [stmt_factory.empty, stmt_factory.count] using this

/-- The term addresses stored inside one Abstraction node. -/
def Abstraction_impl.stored (a : Abstraction_impl) : List TermPtr :=
  [a.bvar.toTerm, a.body]

/-- The term addresses stored inside one Application node. -/
def Application_impl.stored (a : Application_impl) : List TermPtr :=
  [a.left, a.right]

/-- The term addresses stored inside one Declaration node. -/
def Declaration_impl.stored (d : Declaration_impl) : List TermPtr :=
  [d.bvar.toTerm, d.definition]

/-- The term address stored inside one Evaluation node. -/
def Evaluation_impl.stored (e : Evaluation_impl) : List TermPtr :=
  [e.term]

/-- All term addresses stored inside composite nodes of a term arena. -/
def term_factory.stored (f : term_factory) : List TermPtr :=
  (f.abs.map Abstraction_impl.stored).flatten
    ++ (f.app.map Application_impl.stored).flatten

/-- All term addresses stored inside the nodes of a statement arena. -/
def stmt_factory.stored (g : stmt_factory) : List TermPtr :=
  (g.decls.map Declaration_impl.stored).flatten
    ++ (g.evals.map Evaluation_impl.stored).flatten

/-- The term addresses a creation call receives as arguments. -/
def TermOp.argPtrs : TermOp → List TermPtr
  | .mkVar _ => []
  | .mkAbs v t => [v.toTerm, t]
  | .mkApp l r => [l, r]

/-- The term addresses a statement creation call receives as arguments. -/
def StmtOp.argPtrs : StmtOp → List TermPtr
  | .mkDecl v d => [v.toTerm, d]
  | .mkEval t => [t]

/-- A term-arena call sequence is well formed relative to a list `prior` of
already returned addresses when every pointer argument of every call is among
the addresses returned before that call. -/
def wfFrom (prior : List TermPtr) (f : term_factory) : List TermOp → Bool
  | [] => true
  | o :: os => o.argPtrs.all (fun p => decide (p ∈ prior)) &&
      wfFrom (f.retOf o :: prior) (f.step o) os

/-- Statement-arena analogue: `prior` holds the term addresses available to
the caller; statement addresses are never stored inside nodes, so `prior`
does not grow. -/
def wfStmt (prior : List TermPtr) : List StmtOp → Bool
  | [] => true
  | o :: os => o.argPtrs.all (fun p => decide (p ∈ prior)) && wfStmt prior os

/-- A step stores nothing beyond what was already stored and the arguments of
the call itself. -/
theorem mem_stored_step {f : term_factory} {o : TermOp} {p : TermPtr}
    (h : p ∈ (f.step o).stored) : p ∈ f.stored ∨ p ∈ o.argPtrs := by
  cases o with
  | mkVar s => exact Or.inl h
  | mkAbs v t =>
    simp only [term_factory.stored, step_mkAbs, List.map_append,
      List.flatten_append, List.mem_append] at h ⊢
    simp only [TermOp.argPtrs]
    rcases h with (h | h) | h
    · exact Or.inl (Or.inl h)
    · right
      simpa [Abstraction_impl.stored] using h
    · exact Or.inl (Or.inr h)
  | mkApp l r =>
    simp only [term_factory.stored, step_mkApp, List.map_append,
      List.flatten_append, List.mem_append] at h ⊢
    simp only [TermOp.argPtrs]
    rcases h with h | (h | h)
    · exact Or.inl (Or.inl h)
    · exact Or.inl (Or.inr h)
    · right
      simpa [Application_impl.stored] using h

/-- Statement-arena analogue of `mem_stored_step`. -/
theorem mem_stored_step_stmt {g : stmt_factory} {o : StmtOp} {p : TermPtr}
    (h : p ∈ (g.step o).stored) : p ∈ g.stored ∨ p ∈ o.argPtrs := by
  cases o with
  | mkDecl v d =>
    simp only [stmt_factory.stored, step_mkDecl, List.map_append,
      List.flatten_append, List.mem_append] at h ⊢
    simp only [StmtOp.argPtrs]
    rcases h with (h | h) | h
    · exact Or.inl (Or.inl h)
    · right
      simpa [Declaration_impl.stored] using h
    · exact Or.inl (Or.inr h)
  | mkEval t =>
    simp only [stmt_factory.stored, step_mkEval, List.map_append,
      List.flatten_append, List.mem_append] at h ⊢
    simp only [StmtOp.argPtrs]
    rcases h with h | (h | h)
    · exact Or.inl (Or.inl h)
    · exact Or.inl (Or.inr h)
    · right
      simpa [Evaluation_impl.stored] using h

/-- Invariant preservation: on a well-formed call sequence, every address
stored in the final state was either stored initially or returned by one of
the calls of the sequence (and, at the step that stored it, had already been
returned strictly before). -/
theorem wfFrom_stored_sub {prior : List TermPtr} {f : term_factory}
    {ops : List TermOp}
    (hinv : ∀ p ∈ f.stored, p ∈ prior)
    (hwf : wfFrom prior f ops = true) :
    ∀ p ∈ (f.run ops).stored, p ∈ prior ∨ p ∈ f.retsFrom ops := by
  induction ops generalizing prior f with
  | nil =>
    intro p hp
    exact Or.inl (hinv p hp)
  | cons o os ih =>
    simp only [wfFrom, Bool.and_eq_true, List.all_eq_true,
      decide_eq_true_eq] at hwf
    obtain ⟨hargs, hwf2⟩ := hwf
    have hinv2 : ∀ p ∈ (f.step o).stored, p ∈ f.retOf o :: prior := by
      intro p hp
      rcases mem_stored_step hp with h | h
      · exact List.mem_cons_of_mem _ (hinv p h)
      · exact List.mem_cons_of_mem _ (hargs p h)
    intro p hp
    have hrw : f.run (o :: os) = (f.step o).run os := rfl
    rw [hrw] at hp
    have hrets : f.retsFrom (o :: os)
        = f.retOf o :: (f.step o).retsFrom os := rfl
    rcases ih hinv2 hwf2 p hp with h | h
    · rcases List.mem_cons.mp h with h | h
      · subst h
        rw [hrets]
        exact Or.inr (List.mem_cons_self _ _)
      · exact Or.inl h
    · rw [hrets]
      exact Or.inr (List.mem_cons_of_mem _ h)

/-- Statement-arena analogue of `wfFrom_stored_sub`. -/
theorem wfStmt_stored_sub {prior : List TermPtr} {g : stmt_factory}
    {ops : List StmtOp}
    (hinv : ∀ p ∈ g.stored, p ∈ prior)
    (hwf : wfStmt prior ops = true) :
    ∀ p ∈ (g.run ops).stored, p ∈ prior := by
  induction ops generalizing g with
  | nil =>
    intro p hp
    exact hinv p hp
  | cons o os ih =>
    simp only [wfStmt, Bool.and_eq_true, List.all_eq_true,
      decide_eq_true_eq] at hwf
    obtain ⟨hargs, hwf2⟩ := hwf
    have hinv2 : ∀ p ∈ (g.step o).stored, p ∈ prior := by
      intro p hp
      rcases mem_stored_step_stmt hp with h | h
      · exact hinv p h
      · exact hargs p h
    intro p hp
    have hrw : g.run (o :: os) = (g.step o).run os := rfl
    rw [hrw] at hp
    exact ih hinv2 hwf2 p hp

/-- Counterexample to claim C8 as stated: the factories accept arbitrary
pointer arguments, so a single call `make_application` with the forged
address of variable node 0 of an empty arena reaches a state whose
Application stores an address that no factory call ever returned. -/
theorem stored_address_not_returned_counterexample :
    TermPtr.varAddr 0
        ∈ (term_factory.empty.run [.mkApp (.varAddr 0) (.varAddr 0)]).stored ∧
      TermPtr.varAddr 0
        ∉ term_factory.empty.retsFrom [.mkApp (.varAddr 0) (.varAddr 0)] := by
  decide

/-- Claim C8 (amended): in every state reachable by a sequence of factory
calls in which every pointer argument is an address previously returned by
the arena (for statement calls: returned by the term-arena call sequence),
every node address stored inside a composite node is one of the addresses
returned by those calls, each available strictly before the call that stored
it. -/
theorem stored_addresses_previously_returned
    (ops : List TermOp) (sops : List StmtOp)
    (hwf : wfFrom [] term_factory.empty ops = true)
    (hswf : wfStmt (term_factory.empty.retsFrom ops) sops = true) :
    (∀ p ∈ (term_factory.empty.run ops).stored,
        p ∈ term_factory.empty.retsFrom ops) ∧
      (∀ p ∈ (stmt_factory.empty.run sops).stored,
        p ∈ term_factory.empty.retsFrom ops) := by
  have hemp : ∀ p ∈ term_factory.empty.stored, p ∈ ([] : List TermPtr) := by
    intro p hp
    simp [term_factory.stored, term_factory.empty] at hp
  have hemps : ∀ p ∈ stmt_factory.empty.stored,
      p ∈ term_factory.empty.retsFrom ops := by
    intro p hp
    simp [stmt_factory.stored, stmt_factory.empty] at hp
  constructor
  · intro p hp
    rcases wfFrom_stored_sub hemp hwf p hp with h | h
    · simp at h
    · exact h
  · exact wfStmt_stored_sub hemps hswf

/-- Witness for the amended C8: a well-formed trace building a variable, an
abstraction over it and an evaluation of it only stores returned
addresses. -/
theorem stored_addresses_previously_returned_witness :
    wfFrom [] term_factory.empty
        [.mkVar (some 1), .mkAbs (.addr 0) (.varAddr 0)] = true ∧
      wfStmt (term_factory.empty.retsFrom
          [.mkVar (some 1), .mkAbs (.addr 0) (.varAddr 0)])
        [.mkEval (.varAddr 0)] = true ∧
      ((∀ p ∈ (term_factory.empty.run
            [.mkVar (some 1), .mkAbs (.addr 0) (.varAddr 0)]).stored,
          p ∈ term_factory.empty.retsFrom
            [.mkVar (some 1), .mkAbs (.addr 0) (.varAddr 0)]) ∧
        (∀ p ∈ (stmt_factory.empty.run [.mkEval (.varAddr 0)]).stored,
          p ∈ term_factory.empty.retsFrom
            [.mkVar (some 1), .mkAbs (.addr 0) (.varAddr 0)])) :=
  ⟨by decide, by decide,
    stored_addresses_previously_returned
      [.mkVar (some 1), .mkAbs (.addr 0) (.varAddr 0)]
      [.mkEval (.varAddr 0)] (by decide) (by decide)⟩

end LambdaArena
